import Mathlib

/-!
# Wire codec helpers of `kernel/messenger.h`

A shallow embedding of the inline encode/decode helpers of the Ceph kernel
messenger header, and the properties of the wire codec that hold of them.

## Memory model

* Memory is a total map from addresses to bytes.  Addresses are integers and
  pointer arithmetic is exact: the C code never relies on wrap-around of an
  address, and the kernel maps no object at the very end of the address space.
  A byte read is `mem a % 256`, so every byte value is below 256.
* The host byte order is a parameter `be : Bool` (`true` on a big-endian host).
  A native load or store of a 16/32/64-bit object places the most significant
  byte first on a big-endian host and last on a little-endian one.
* `le*_to_cpu` and `cpu_to_le*` are the kernel byte-order macros: a cast to the
  fixed width on a little-endian host, a byte swap on a big-endian one.
* Every decoder returns, next to its C results, the list of addresses it read.
* `BUG_ON(c)` stops the calling thread when `c` holds: the call has no result.
-/

namespace Ceph

/-! ## Memory and byte order -/

/-- Byte-addressed memory. -/
abbrev Mem := Int → Nat

/-- The value of `EINVAL` in the kernel's errno table. -/
def EINVAL : Int := 22

/-- The byte stored at address `a`. -/
def byte (mem : Mem) (a : Int) : Nat := mem a % 256

/-- The `n` consecutive addresses starting at `a`. -/
def span (a : Int) (n : Nat) : List Int := (List.range n).map (fun (i : Nat) => a + (i : Int))

/-- The `n` bytes stored from address `a` on, in address order. -/
def load_bytes (mem : Mem) (a : Int) (n : Nat) : List Nat :=
  (List.range n).map (fun (i : Nat) => byte mem (a + (i : Int)))

/-- Memory after the bytes `bs` are written from address `a` on. -/
def store_bytes (mem : Mem) (a : Int) (bs : List Nat) : Mem :=
  fun i => if a ≤ i ∧ i < a + (bs.length : Int) then bs.getD (i - a).toNat 0 % 256 else mem i

/-- Kernel `__swab16`: exchanges the two bytes of a 16-bit value. -/
def bswap16 (x : Nat) : Nat := (x % 256) * 2 ^ 8 + (x / 2 ^ 8) % 256

/-- Kernel `__swab32`: reverses the four bytes of a 32-bit value. -/
def bswap32 (x : Nat) : Nat :=
  (x % 256) * 2 ^ 24 + (x / 2 ^ 8 % 256) * 2 ^ 16 + (x / 2 ^ 16 % 256) * 2 ^ 8 + x / 2 ^ 24 % 256

/-- Kernel `__swab64`: reverses the eight bytes of a 64-bit value. -/
def bswap64 (x : Nat) : Nat :=
  (x % 256) * 2 ^ 56 + (x / 2 ^ 8 % 256) * 2 ^ 48 + (x / 2 ^ 16 % 256) * 2 ^ 40
    + (x / 2 ^ 24 % 256) * 2 ^ 32 + (x / 2 ^ 32 % 256) * 2 ^ 24 + (x / 2 ^ 40 % 256) * 2 ^ 16
    + (x / 2 ^ 48 % 256) * 2 ^ 8 + x / 2 ^ 56 % 256

/-- Kernel `le16_to_cpu`. -/
def le16_to_cpu (be : Bool) (x : Nat) : Nat := if be then bswap16 x else x % 2 ^ 16

/-- Kernel `le32_to_cpu`. -/
def le32_to_cpu (be : Bool) (x : Nat) : Nat := if be then bswap32 x else x % 2 ^ 32

/-- Kernel `le64_to_cpu`. -/
def le64_to_cpu (be : Bool) (x : Nat) : Nat := if be then bswap64 x else x % 2 ^ 64

/-- Kernel `cpu_to_le16`. -/
def cpu_to_le16 (be : Bool) (x : Nat) : Nat := if be then bswap16 x else x % 2 ^ 16

/-- Kernel `cpu_to_le32`. -/
def cpu_to_le32 (be : Bool) (x : Nat) : Nat := if be then bswap32 x else x % 2 ^ 32

/-- Kernel `cpu_to_le64`. -/
def cpu_to_le64 (be : Bool) (x : Nat) : Nat := if be then bswap64 x else x % 2 ^ 64

/-- Native load `*(__u16*)a`. -/
def load16 (be : Bool) (mem : Mem) (a : Int) : Nat :=
  if be then byte mem a * 2 ^ 8 + byte mem (a + 1)
  else byte mem a + byte mem (a + 1) * 2 ^ 8

/-- Native load `*(__u32*)a`. -/
def load32 (be : Bool) (mem : Mem) (a : Int) : Nat :=
  if be then
    byte mem a * 2 ^ 24 + byte mem (a + 1) * 2 ^ 16 + byte mem (a + 2) * 2 ^ 8 + byte mem (a + 3)
  else
    byte mem a + byte mem (a + 1) * 2 ^ 8 + byte mem (a + 2) * 2 ^ 16 + byte mem (a + 3) * 2 ^ 24

/-- Native load `*(__u64*)a`. -/
def load64 (be : Bool) (mem : Mem) (a : Int) : Nat :=
  if be then
    byte mem a * 2 ^ 56 + byte mem (a + 1) * 2 ^ 48 + byte mem (a + 2) * 2 ^ 40
      + byte mem (a + 3) * 2 ^ 32 + byte mem (a + 4) * 2 ^ 24 + byte mem (a + 5) * 2 ^ 16
      + byte mem (a + 6) * 2 ^ 8 + byte mem (a + 7)
  else
    byte mem a + byte mem (a + 1) * 2 ^ 8 + byte mem (a + 2) * 2 ^ 16
      + byte mem (a + 3) * 2 ^ 24 + byte mem (a + 4) * 2 ^ 32 + byte mem (a + 5) * 2 ^ 40
      + byte mem (a + 6) * 2 ^ 48 + byte mem (a + 7) * 2 ^ 56

/-- The four bytes of the object representation of a 32-bit value, in address order. -/
def repr32 (be : Bool) (x : Nat) : List Nat :=
  if be then [x / 2 ^ 24 % 256, x / 2 ^ 16 % 256, x / 2 ^ 8 % 256, x % 256]
  else [x % 256, x / 2 ^ 8 % 256, x / 2 ^ 16 % 256, x / 2 ^ 24 % 256]

/-- The eight bytes of the object representation of a 64-bit value, in address order. -/
def repr64 (be : Bool) (x : Nat) : List Nat :=
  if be then
    [x / 2 ^ 56 % 256, x / 2 ^ 48 % 256, x / 2 ^ 40 % 256, x / 2 ^ 32 % 256,
     x / 2 ^ 24 % 256, x / 2 ^ 16 % 256, x / 2 ^ 8 % 256, x % 256]
  else
    [x % 256, x / 2 ^ 8 % 256, x / 2 ^ 16 % 256, x / 2 ^ 24 % 256,
     x / 2 ^ 32 % 256, x / 2 ^ 40 % 256, x / 2 ^ 48 % 256, x / 2 ^ 56 % 256]

/-- Native store `*(__u32*)a = x`. -/
def store32 (be : Bool) (mem : Mem) (a : Int) (x : Nat) : Mem := store_bytes mem a (repr32 be x)

/-- Native store `*(__u64*)a = x`. -/
def store64 (be : Bool) (mem : Mem) (a : Int) (x : Nat) : Mem := store_bytes mem a (repr64 be x)

/-! ## Decoding helpers -/

/-- Result of a decode helper: the returned `int`, the cursor `*p` and the
output object `*v` after the call, and the addresses the call read. -/
structure Decoded (α : Type) where
  ret : Int
  p : Int
  v : α
  reads : List Int

/-- The helper `ceph_decode_64(void **p, void *end, __u64 *v)`. -/
def ceph_decode_64 (be : Bool) (mem : Mem) (p end_ : Int) (v : Nat) : Decoded Nat :=
  if p + 8 > end_ then ⟨-EINVAL, p, v, []⟩
  else ⟨0, p + 8, le64_to_cpu be (load64 be mem p), span p 8⟩

/-- The helper `ceph_decode_32(void **p, void *end, __u32 *v)`. -/
def ceph_decode_32 (be : Bool) (mem : Mem) (p end_ : Int) (v : Nat) : Decoded Nat :=
  if p + 4 > end_ then ⟨-EINVAL, p, v, []⟩
  else ⟨0, p + 4, le32_to_cpu be (load32 be mem p), span p 4⟩

/-- The helper `ceph_decode_16(void **p, void *end, __u16 *v)`. -/
def ceph_decode_16 (be : Bool) (mem : Mem) (p end_ : Int) (v : Nat) : Decoded Nat :=
  if p + 2 > end_ then ⟨-EINVAL, p, v, []⟩
  else ⟨0, p + 2, le16_to_cpu be (load16 be mem p), span p 2⟩

/-- Conversion of a `size_t` value to `int` (32-bit two's complement), as happens
to the `len` argument of `ceph_decode_copy`. -/
def int_of_size_t (n : Nat) : Int := (((n + 2 ^ 31) % 2 ^ 32 : Nat) : Int) - 2 ^ 31

/-- Conversion of an `int` to `size_t` (64-bit), as happens to the length
argument of `memcpy`. -/
def size_t_of_int (i : Int) : Nat := (i % 2 ^ 64).toNat

/-- The helper `ceph_decode_copy(void **p, void *end, void *v, int len)`.
The destination object is given by its bytes `v`; `memcpy` overwrites its
first `(size_t)len` bytes. -/
def ceph_decode_copy (mem : Mem) (p end_ : Int) (v : List Nat) (len : Int) : Decoded (List Nat) :=
  if p + len > end_ then ⟨-EINVAL, p, v, []⟩
  else ⟨0, p + len, load_bytes mem p (size_t_of_int len) ++ v.drop (size_t_of_int len),
        span p (size_t_of_int len)⟩

/-- Modelled from the spec: `struct ceph_entity_name` is declared in
`linux/ceph_fs.h`, which is not part of the sources; the spec gives it as
(type:32, num:32). -/
structure ceph_entity_name where
  type : Nat
  num : Nat
  deriving DecidableEq, Repr

/-- Modelled from the spec: `struct ceph_entity_addr` is declared in
`linux/ceph_fs.h`, which is not part of the sources; the spec gives it as
(rank:32, nonce:32, ip_endpoint:fixed-size raw bytes).  The endpoint is kept
as its raw bytes. -/
structure ceph_entity_addr where
  erank : Nat
  nonce : Nat
  ipaddr : List Nat
  deriving DecidableEq, Repr

/-- Modelled from the spec: `struct ceph_entity_inst` is declared in
`linux/ceph_fs.h`, which is not part of the sources; the spec gives it as a
name followed by an address. -/
structure ceph_entity_inst where
  name : ceph_entity_name
  addr : ceph_entity_addr
  deriving DecidableEq, Repr

/-- Modelled from the spec: `struct ceph_msg_header` is declared in
`linux/ceph_fs.h`, which is not part of the sources; the spec gives it as
seq(4) type(4) src dst front_len(2) data_off(2) data_len(2). -/
structure ceph_msg_header where
  seq : Nat
  type : Nat
  src : ceph_entity_inst
  dst : ceph_entity_inst
  front_len : Nat
  data_off : Nat
  data_len : Nat
  deriving DecidableEq, Repr

/-- Modelled from the spec: `sizeof(struct ceph_entity_name)`, two 32-bit fields. -/
def sizeof_entity_name : Nat := 4 + 4

/-- Modelled from the spec: `sizeof(struct ceph_entity_addr)`, two 32-bit fields
followed by the endpoint of `n = sizeof(ipaddr)` bytes. -/
def sizeof_entity_addr (n : Nat) : Nat := 4 + 4 + n

/-- Modelled from the spec: `sizeof(ceph_ino_t)`, a 64-bit id. -/
def sizeof_ino : Nat := 8

/-- The helper `ceph_decode_addr(void **p, void *end, struct ceph_entity_addr *v)`;
`n` is `sizeof(v->ipaddr)`.  The result of the inner `ceph_decode_copy` is
dropped, as in the source. -/
def ceph_decode_addr (be : Bool) (n : Nat) (mem : Mem) (p end_ : Int) (v : ceph_entity_addr) :
    Decoded ceph_entity_addr :=
  if p + (sizeof_entity_addr n : Int) > end_ then ⟨-EINVAL, p, v, []⟩
  else
    let r1 := ceph_decode_32 be mem p end_ v.erank
    if r1.ret ≠ 0 then ⟨-EINVAL, r1.p, { v with erank := r1.v }, r1.reads⟩
    else
      let r2 := ceph_decode_32 be mem r1.p end_ v.nonce
      if r2.ret ≠ 0 then
        ⟨-EINVAL, r2.p, { v with erank := r1.v, nonce := r2.v }, r1.reads ++ r2.reads⟩
      else
        let r3 := ceph_decode_copy mem r2.p end_ v.ipaddr (int_of_size_t n)
        ⟨0, r3.p, { erank := r1.v, nonce := r2.v, ipaddr := r3.v },
          r1.reads ++ r2.reads ++ r3.reads⟩

/-- The helper `ceph_decode_name(void **p, void *end, struct ceph_entity_name *v)`. -/
def ceph_decode_name (be : Bool) (mem : Mem) (p end_ : Int) (v : ceph_entity_name) :
    Decoded ceph_entity_name :=
  if p + (sizeof_entity_name : Int) > end_ then ⟨-EINVAL, p, v, []⟩
  else
    ⟨0, p + 4 + 4,
      { type := le32_to_cpu be (load32 be mem p), num := le32_to_cpu be (load32 be mem (p + 4)) },
      span p 4 ++ span (p + 4) 4⟩

/-! ## In-place conversion of instances and headers -/

/-- The helper `ceph_decode_inst(struct ceph_entity_inst *to)`. -/
def ceph_decode_inst (be : Bool) (to_ : ceph_entity_inst) : ceph_entity_inst :=
  { name := { type := le32_to_cpu be to_.name.type, num := le32_to_cpu be to_.name.num },
    addr := { erank := le32_to_cpu be to_.addr.erank, nonce := le32_to_cpu be to_.addr.nonce,
              ipaddr := to_.addr.ipaddr } }

/-- The helper `ceph_encode_inst(struct ceph_entity_inst *to, struct ceph_entity_inst *from)`. -/
def ceph_encode_inst (be : Bool) (to_ from_ : ceph_entity_inst) : ceph_entity_inst :=
  { to_ with
    name := { type := cpu_to_le32 be from_.name.type, num := cpu_to_le32 be from_.name.num },
    addr := { erank := cpu_to_le32 be from_.addr.erank, nonce := cpu_to_le32 be from_.addr.nonce,
              ipaddr := from_.addr.ipaddr } }

/-- The helper `ceph_encode_header(struct ceph_msg_header *to, struct ceph_msg_header *from)`. -/
def ceph_encode_header (be : Bool) (to_ from_ : ceph_msg_header) : ceph_msg_header :=
  { to_ with
    seq := cpu_to_le32 be from_.seq,
    type := cpu_to_le32 be from_.type,
    src := ceph_encode_inst be to_.src from_.src,
    dst := ceph_encode_inst be to_.dst from_.dst,
    front_len := cpu_to_le16 be from_.front_len,
    data_off := cpu_to_le16 be from_.data_off,
    data_len := cpu_to_le16 be from_.data_len }

/-- The helper `ceph_decode_header(struct ceph_msg_header *to)`. -/
def ceph_decode_header (be : Bool) (to_ : ceph_msg_header) : ceph_msg_header :=
  { to_ with
    seq := cpu_to_le32 be to_.seq,
    type := cpu_to_le32 be to_.type,
    src := ceph_decode_inst be to_.src,
    dst := ceph_decode_inst be to_.dst,
    front_len := cpu_to_le16 be to_.front_len,
    data_off := cpu_to_le16 be to_.data_off,
    data_len := cpu_to_le16 be to_.data_len }

/-- Every 32-bit field of a name is below `2 ^ 32`. -/
def ceph_entity_name.wf (x : ceph_entity_name) : Prop := x.type < 2 ^ 32 ∧ x.num < 2 ^ 32

/-- Every 32-bit field of an address is below `2 ^ 32`. -/
def ceph_entity_addr.wf (x : ceph_entity_addr) : Prop := x.erank < 2 ^ 32 ∧ x.nonce < 2 ^ 32

/-- Every field of an instance is in the range of its C type. -/
def ceph_entity_inst.wf (x : ceph_entity_inst) : Prop := x.name.wf ∧ x.addr.wf

/-- Every field of a header is in the range of its C type. -/
def ceph_msg_header.wf (x : ceph_msg_header) : Prop :=
  x.seq < 2 ^ 32 ∧ x.type < 2 ^ 32 ∧ x.src.wf ∧ x.dst.wf ∧
    x.front_len < 2 ^ 16 ∧ x.data_off < 2 ^ 16 ∧ x.data_len < 2 ^ 16

instance (x : ceph_entity_name) : Decidable x.wf := by
  unfold ceph_entity_name.wf; infer_instance

instance (x : ceph_entity_addr) : Decidable x.wf := by
  unfold ceph_entity_addr.wf; infer_instance

instance (x : ceph_entity_inst) : Decidable x.wf := by
  unfold ceph_entity_inst.wf; infer_instance

instance (x : ceph_msg_header) : Decidable x.wf := by
  unfold ceph_msg_header.wf; infer_instance

/-! ## Encoding helpers -/

/-- How a call ends: `BUG_ON` fired and the call never returns, or it returned. -/
inductive Outcome (α : Type) where
  | bug : Outcome α
  | returned : α → Outcome α

/-- State after an encode helper returned: the returned `int`, the cursor `*p`
and memory. -/
structure Encoded where
  ret : Int
  p : Int
  mem : Mem

/-- The helper `ceph_encode_64(void **p, void *end, __u64 v)`. -/
def ceph_encode_64 (be : Bool) (mem : Mem) (p end_ : Int) (v : Nat) : Outcome Encoded :=
  if p + 8 > end_ then Outcome.bug
  else Outcome.returned ⟨0, p + 8, store64 be mem p (cpu_to_le64 be v)⟩

/-- The helper `ceph_encode_32(void **p, void *end, __u32 v)`.  The source converts
with `cpu_to_le64`; the 64-bit result is cut to 32 bits by the store. -/
def ceph_encode_32 (be : Bool) (mem : Mem) (p end_ : Int) (v : Nat) : Outcome Encoded :=
  if p + 4 > end_ then Outcome.bug
  else Outcome.returned ⟨0, p + 4, store32 be mem p (cpu_to_le64 be v % 2 ^ 32)⟩

/-- The helper `ceph_encode_filepath(void **p, void *end, ceph_ino_t ino, const char *path)`.
The string `path` is given by its bytes before the terminator, so `strlen`
is its length; `len` is a `__u32`. -/
def ceph_encode_filepath (be : Bool) (mem : Mem) (p end_ : Int) (ino : Nat) (path : List Nat) :
    Outcome Encoded :=
  let len : Nat := path.length % 2 ^ 32
  if p + (sizeof_ino : Int) + 4 + (len : Int) > end_ then Outcome.bug
  else
    match ceph_encode_64 be mem p end_ ino with
    | Outcome.bug => Outcome.bug
    | Outcome.returned r1 =>
      match ceph_encode_32 be r1.mem r1.p end_ len with
      | Outcome.bug => Outcome.bug
      | Outcome.returned r2 =>
        Outcome.returned ⟨0, r2.p + (len : Int), store_bytes r2.mem r2.p (path.take len)⟩

/-- A memory holding the bytes `bs` from address 0 on and zero elsewhere. -/
def mem_of (bs : List Nat) : Mem := fun a => if 0 ≤ a then bs.getD a.toNat 0 else 0

/-- A sample header, with fields that change under a byte swap. -/
def hdr0 : ceph_msg_header :=
  { seq := 0x01020304, type := 7,
    src := { name := { type := 1, num := 258 },
             addr := { erank := 3, nonce := 0xfffffffe, ipaddr := [2, 0, 26, 133, 10, 0, 0, 1] } },
    dst := { name := { type := 4, num := 0 },
             addr := { erank := 0, nonce := 65536, ipaddr := [2, 0, 26, 134, 10, 0, 0, 2] } },
    front_len := 0x1234, data_off := 255, data_len := 4096 }

/-! ## Entity type names -/

/-- Modelled from the spec: the constants `CEPH_ENTITY_TYPE_MON`, `_MDS`, `_OSD`,
`_CLIENT` and `_ADMIN` are defined in `linux/ceph_fs.h`, which is not part of
the sources; the spec names the five entity types without their values, so
the values are parameters. -/
structure entity_types where
  mon : Int
  mds : Int
  osd : Int
  client : Int
  admin : Int
  deriving DecidableEq, Repr

/-- The five case labels of the `switch`, in source order; a C compiler rejects a
`switch` in which two of them are equal. -/
def entity_types.labels (c : entity_types) : List Int := [c.mon, c.mds, c.osd, c.client, c.admin]

/-- The helper `ceph_name_type_str(int t)`. -/
def ceph_name_type_str (c : entity_types) (t : Int) : String :=
  if t = c.mon then "mon"
  else if t = c.mds then "mds"
  else if t = c.osd then "osd"
  else if t = c.client then "client"
  else if t = c.admin then "admin"
  else "???"

/-! ## Messages -/

/-- Kernel `struct kvec`: a base address and a length. -/
structure kvec where
  iov_base : Int
  iov_len : Nat
  deriving DecidableEq, Repr

/-- Kernel `struct list_head`: the addresses of the neighbours in a list. -/
structure list_head where
  next : Int
  prev : Int
  deriving DecidableEq, Repr

/-- The structure `struct ceph_msg`.  `pages` is the address of the page array;
`nref` is the counter of an `atomic_t`, a 32-bit `int`. -/
structure ceph_msg where
  hdr : ceph_msg_header
  front : kvec
  pages : Int
  nr_pages : Nat
  list_head : Ceph.list_head
  nref : Int
  deriving DecidableEq, Repr

/-- Kernel `atomic_inc` on the counter of an `atomic_t`: adds one to a 32-bit
`int`, wrapping in two's complement. -/
def atomic_inc (x : Int) : Int := (x + 1 + 2 ^ 31) % 2 ^ 32 - 2 ^ 31

/-- The helper `ceph_msg_get(struct ceph_msg *msg)`. -/
def ceph_msg_get (msg : ceph_msg) : ceph_msg := { msg with nref := atomic_inc msg.nref }

/-- A sample message holding as many references as an `atomic_t` can count. -/
def msg_full : ceph_msg :=
  { hdr := hdr0, front := ⟨4096, 64⟩, pages := 8192, nr_pages := 2, list_head := ⟨256, 512⟩,
    nref := 2 ^ 31 - 1 }

/-! ## Connection states -/

/-- The connection states, `#define NEW 1` to `#define CLOSED 7`. -/
inductive conn_state where
  | NEW
  | CONNECTING
  | ACCEPTING
  | OPEN
  | WRITE_PENDING
  | REJECTING
  | CLOSED
  deriving DecidableEq, Repr

/-- The number kept in `ceph_connection.state` for each state. -/
def conn_state.code : conn_state → Nat
  | conn_state.NEW => 1
  | conn_state.CONNECTING => 2
  | conn_state.ACCEPTING => 3
  | conn_state.OPEN => 4
  | conn_state.WRITE_PENDING => 5
  | conn_state.REJECTING => 6
  | conn_state.CLOSED => 7

/-- Modelled from the spec: what can happen to a connection, after §4.3.  The
code that moves `ceph_connection.state` lives in the messenger's C file, which
is not part of the sources; the header only defines the states. -/
inductive conn_event where
  | open_peer
  | inbound
  | handshake_done
  | handshake_rejected
  | reject_sent
  | write_scheduled
  | queue_drained
  | transport_error
  | violation
  | close
  deriving DecidableEq, Repr

/-- Modelled from the spec: the part of `struct ceph_connection` the state
machine of §4.3 works on, `state` and `retries`; the code that updates them is
not part of the sources. -/
structure conn where
  state : conn_state
  retries : Nat
  deriving DecidableEq, Repr

/-- Modelled from the spec: one step of the connection state machine of §4.3,
whose code is not part of the sources.  A caller-initiated open or an inbound
connection starts a new connection; the handshake ends in `OPEN` or in
`REJECTING`, which sends its notice and closes; `OPEN` and `WRITE_PENDING`
alternate as writes are scheduled and the queue drains; a transport error on an
established or connecting connection reconnects while `retries` has not
exceeded `max_retries` and closes otherwise; a handshake or framing violation
closes at once; a close request or shutdown closes from every state.  An event
that the table does not list for the current state changes nothing. -/
def conn_step (max_retries : Nat) (c : conn) : conn_event → conn
  | conn_event.open_peer =>
    match c.state with
    | conn_state.NEW => { c with state := conn_state.CONNECTING }
    | _ => c
  | conn_event.inbound =>
    match c.state with
    | conn_state.NEW => { c with state := conn_state.ACCEPTING }
    | _ => c
  | conn_event.handshake_done =>
    match c.state with
    | conn_state.CONNECTING => { c with state := conn_state.OPEN }
    | conn_state.ACCEPTING => { c with state := conn_state.OPEN }
    | _ => c
  | conn_event.handshake_rejected =>
    match c.state with
    | conn_state.CONNECTING => { c with state := conn_state.REJECTING }
    | conn_state.ACCEPTING => { c with state := conn_state.REJECTING }
    | _ => c
  | conn_event.reject_sent =>
    match c.state with
    | conn_state.REJECTING => { c with state := conn_state.CLOSED }
    | _ => c
  | conn_event.write_scheduled =>
    match c.state with
    | conn_state.OPEN => { c with state := conn_state.WRITE_PENDING }
    | _ => c
  | conn_event.queue_drained =>
    match c.state with
    | conn_state.WRITE_PENDING => { c with state := conn_state.OPEN }
    | _ => c
  | conn_event.transport_error =>
    match c.state with
    | conn_state.OPEN | conn_state.WRITE_PENDING | conn_state.CONNECTING =>
      if c.retries ≤ max_retries then { state := conn_state.CONNECTING, retries := c.retries + 1 }
      else { c with state := conn_state.CLOSED }
    | _ => c
  | conn_event.violation =>
    match c.state with
    | conn_state.CONNECTING | conn_state.ACCEPTING | conn_state.OPEN
    | conn_state.WRITE_PENDING => { c with state := conn_state.CLOSED }
    | _ => c
  | conn_event.close => { c with state := conn_state.CLOSED }

/-- Modelled from the spec: the transition table of §4.3 as a relation on
states; the last line is "any state → Closed". -/
def conn_table : conn_state → conn_state → Bool
  | conn_state.NEW, conn_state.CONNECTING => true
  | conn_state.NEW, conn_state.ACCEPTING => true
  | conn_state.CONNECTING, conn_state.OPEN => true
  | conn_state.ACCEPTING, conn_state.OPEN => true
  | conn_state.CONNECTING, conn_state.REJECTING => true
  | conn_state.ACCEPTING, conn_state.REJECTING => true
  | conn_state.OPEN, conn_state.WRITE_PENDING => true
  | conn_state.WRITE_PENDING, conn_state.OPEN => true
  | conn_state.OPEN, conn_state.CONNECTING => true
  | conn_state.WRITE_PENDING, conn_state.CONNECTING => true
  | _, conn_state.CLOSED => true
  | _, _ => false

/-- The connection after a sequence of events, oldest first. -/
def conn_run (max_retries : Nat) (c : conn) (es : List conn_event) : conn :=
  es.foldl (conn_step max_retries) c

/-! ## Arithmetic of the byte-order conversions -/

theorem byte_lt (mem : Mem) (a : Int) : byte mem a < 256 := by
  unfold byte; omega

theorem le16_load16 (be : Bool) (mem : Mem) (a : Int) :
    le16_to_cpu be (load16 be mem a) = byte mem a + byte mem (a + 1) * 256 := by
  have h0 := byte_lt mem a
  have h1 := byte_lt mem (a + 1)
  cases be <;> simp only [le16_to_cpu, load16, bswap16, if_true, if_false, Bool.false_eq_true] <;>
    omega

theorem le32_load32 (be : Bool) (mem : Mem) (a : Int) :
    le32_to_cpu be (load32 be mem a)
      = byte mem a + byte mem (a + 1) * 256 + byte mem (a + 2) * 256 ^ 2
        + byte mem (a + 3) * 256 ^ 3 := by
  have h0 := byte_lt mem a
  have h1 := byte_lt mem (a + 1)
  have h2 := byte_lt mem (a + 2)
  have h3 := byte_lt mem (a + 3)
  cases be <;> simp only [le32_to_cpu, load32, bswap32, if_true, if_false, Bool.false_eq_true] <;>
    omega

/-- Byte `k` (counted from the least significant one) of a value given by its
eight bytes, most significant first. -/
theorem bytes_of_sum8 (b0 b1 b2 b3 b4 b5 b6 b7 : Nat) (h0 : b0 < 256) (h1 : b1 < 256)
    (h2 : b2 < 256) (h3 : b3 < 256) (h4 : b4 < 256) (h5 : b5 < 256) (h6 : b6 < 256)
    (h7 : b7 < 256) (x : Nat)
    (hx : x = b0 * 2 ^ 56 + b1 * 2 ^ 48 + b2 * 2 ^ 40 + b3 * 2 ^ 32 + b4 * 2 ^ 24 + b5 * 2 ^ 16
      + b6 * 2 ^ 8 + b7) :
    x % 256 = b7 ∧ x / 2 ^ 8 % 256 = b6 ∧ x / 2 ^ 16 % 256 = b5 ∧ x / 2 ^ 24 % 256 = b4 ∧
      x / 2 ^ 32 % 256 = b3 ∧ x / 2 ^ 40 % 256 = b2 ∧ x / 2 ^ 48 % 256 = b1 ∧
      x / 2 ^ 56 % 256 = b0 := by
  refine ⟨?_, ?_, ?_, ?_, ?_, ?_, ?_, ?_⟩ <;> omega

theorem le64_load64 (be : Bool) (mem : Mem) (a : Int) :
    le64_to_cpu be (load64 be mem a)
      = byte mem a + byte mem (a + 1) * 256 + byte mem (a + 2) * 256 ^ 2
        + byte mem (a + 3) * 256 ^ 3 + byte mem (a + 4) * 256 ^ 4 + byte mem (a + 5) * 256 ^ 5
        + byte mem (a + 6) * 256 ^ 6 + byte mem (a + 7) * 256 ^ 7 := by
  have h0 := byte_lt mem a
  have h1 := byte_lt mem (a + 1)
  have h2 := byte_lt mem (a + 2)
  have h3 := byte_lt mem (a + 3)
  have h4 := byte_lt mem (a + 4)
  have h5 := byte_lt mem (a + 5)
  have h6 := byte_lt mem (a + 6)
  have h7 := byte_lt mem (a + 7)
  cases be
  · simp only [le64_to_cpu, load64, if_false, Bool.false_eq_true]
    omega
  · simp only [le64_to_cpu, load64, bswap64, if_true]
    obtain ⟨e7, e6, e5, e4, e3, e2, e1, e0⟩ :=
      bytes_of_sum8 _ _ _ _ _ _ _ _ h0 h1 h2 h3 h4 h5 h6 h7 _ rfl
    rw [e7, e6, e5, e4, e3, e2, e1, e0]
    omega

theorem bytes_of_sum2 (b0 b1 : Nat) (h0 : b0 < 256) (h1 : b1 < 256) (x : Nat)
    (hx : x = b0 * 2 ^ 8 + b1) : x % 256 = b1 ∧ x / 2 ^ 8 % 256 = b0 := by
  refine ⟨?_, ?_⟩ <;> omega

theorem bytes_of_sum4 (b0 b1 b2 b3 : Nat) (h0 : b0 < 256) (h1 : b1 < 256) (h2 : b2 < 256)
    (h3 : b3 < 256) (x : Nat) (hx : x = b0 * 2 ^ 24 + b1 * 2 ^ 16 + b2 * 2 ^ 8 + b3) :
    x % 256 = b3 ∧ x / 2 ^ 8 % 256 = b2 ∧ x / 2 ^ 16 % 256 = b1 ∧ x / 2 ^ 24 % 256 = b0 := by
  refine ⟨?_, ?_, ?_, ?_⟩ <;> omega

theorem bswap16_bswap16 (x : Nat) (hx : x < 2 ^ 16) : bswap16 (bswap16 x) = x := by
  obtain ⟨e1, e0⟩ := bytes_of_sum2 (x % 256) (x / 2 ^ 8 % 256) (by omega) (by omega)
    (bswap16 x) rfl
  have h : bswap16 (bswap16 x) = (bswap16 x % 256) * 2 ^ 8 + (bswap16 x / 2 ^ 8) % 256 := rfl
  rw [h, e1, e0]
  omega

theorem bswap32_bswap32 (x : Nat) (hx : x < 2 ^ 32) : bswap32 (bswap32 x) = x := by
  obtain ⟨e3, e2, e1, e0⟩ := bytes_of_sum4 (x % 256) (x / 2 ^ 8 % 256) (x / 2 ^ 16 % 256)
    (x / 2 ^ 24 % 256) (by omega) (by omega) (by omega) (by omega) (bswap32 x) rfl
  have h : bswap32 (bswap32 x) = (bswap32 x % 256) * 2 ^ 24 + (bswap32 x / 2 ^ 8 % 256) * 2 ^ 16
      + (bswap32 x / 2 ^ 16 % 256) * 2 ^ 8 + bswap32 x / 2 ^ 24 % 256 := rfl
  rw [h, e3, e2, e1, e0]
  omega

theorem bswap64_bswap64 (x : Nat) (hx : x < 2 ^ 64) : bswap64 (bswap64 x) = x := by
  have e := bytes_of_sum8 (x % 256) (x / 2 ^ 8 % 256) (x / 2 ^ 16 % 256) (x / 2 ^ 24 % 256)
    (x / 2 ^ 32 % 256) (x / 2 ^ 40 % 256) (x / 2 ^ 48 % 256) (x / 2 ^ 56 % 256)
    (by omega) (by omega) (by omega) (by omega) (by omega) (by omega) (by omega) (by omega)
    (bswap64 x) (by rw [bswap64])
  obtain ⟨e7, e6, e5, e4, e3, e2, e1, e0⟩ := e
  rw [bswap64, e7, e6, e5, e4, e3, e2, e1, e0]
  omega

theorem cpu_to_le16_twice (be : Bool) (x : Nat) (hx : x < 2 ^ 16) :
    cpu_to_le16 be (cpu_to_le16 be x) = x := by
  cases be
  · simp only [cpu_to_le16, if_false, Bool.false_eq_true]; omega
  · simp only [cpu_to_le16, if_true]; exact bswap16_bswap16 x hx

theorem cpu_to_le32_twice (be : Bool) (x : Nat) (hx : x < 2 ^ 32) :
    cpu_to_le32 be (cpu_to_le32 be x) = x := by
  cases be
  · simp only [cpu_to_le32, if_false, Bool.false_eq_true]; omega
  · simp only [cpu_to_le32, if_true]; exact bswap32_bswap32 x hx

theorem le32_cpu_to_le32 (be : Bool) (x : Nat) (hx : x < 2 ^ 32) :
    le32_to_cpu be (cpu_to_le32 be x) = x := cpu_to_le32_twice be x hx

theorem le64_cpu_to_le64 (be : Bool) (x : Nat) (hx : x < 2 ^ 64) :
    le64_to_cpu be (cpu_to_le64 be x) = x := by
  cases be
  · simp only [le64_to_cpu, cpu_to_le64, if_false, Bool.false_eq_true]; omega
  · simp only [le64_to_cpu, cpu_to_le64, if_true]; exact bswap64_bswap64 x hx

/-! ## Reading back what was stored -/

theorem store_bytes_outside (mem : Mem) (a : Int) (bs : List Nat) (i : Int)
    (h : i < a ∨ a + (bs.length : Int) ≤ i) : store_bytes mem a bs i = mem i := by
  unfold store_bytes
  rw [if_neg]
  omega

theorem byte_store_bytes (mem : Mem) (a : Int) (bs : List Nat) (k : Nat) (hk : k < bs.length) :
    byte (store_bytes mem a bs) (a + (k : Int)) = bs.getD k 0 % 256 := by
  unfold byte store_bytes
  rw [if_pos (by omega)]
  have : (a + (k : Int) - a).toNat = k := by
    rw [add_sub_cancel_left]; exact Int.toNat_ofNat k
  rw [this, Nat.mod_mod]

theorem load_bytes_length (mem : Mem) (a : Int) (n : Nat) : (load_bytes mem a n).length = n := by
  unfold load_bytes; rw [List.length_map, List.length_range]

theorem load32_store32 (be : Bool) (mem : Mem) (a : Int) (x : Nat) :
    load32 be (store32 be mem a x) a = x % 2 ^ 32 := by
  have b0 := byte_store_bytes mem a (repr32 be x) 0 (by cases be <;> simp [repr32])
  have b1 := byte_store_bytes mem a (repr32 be x) 1 (by cases be <;> simp [repr32])
  have b2 := byte_store_bytes mem a (repr32 be x) 2 (by cases be <;> simp [repr32])
  have b3 := byte_store_bytes mem a (repr32 be x) 3 (by cases be <;> simp [repr32])
  simp only [Nat.cast_zero, add_zero, Nat.cast_one, Nat.cast_ofNat] at b0 b1 b2 b3
  unfold load32 store32
  rw [b0, b1, b2, b3]
  cases be <;> simp [repr32] <;> omega

theorem load64_store64 (be : Bool) (mem : Mem) (a : Int) (x : Nat) :
    load64 be (store64 be mem a x) a = x % 2 ^ 64 := by
  have b0 := byte_store_bytes mem a (repr64 be x) 0 (by cases be <;> simp [repr64])
  have b1 := byte_store_bytes mem a (repr64 be x) 1 (by cases be <;> simp [repr64])
  have b2 := byte_store_bytes mem a (repr64 be x) 2 (by cases be <;> simp [repr64])
  have b3 := byte_store_bytes mem a (repr64 be x) 3 (by cases be <;> simp [repr64])
  have b4 := byte_store_bytes mem a (repr64 be x) 4 (by cases be <;> simp [repr64])
  have b5 := byte_store_bytes mem a (repr64 be x) 5 (by cases be <;> simp [repr64])
  have b6 := byte_store_bytes mem a (repr64 be x) 6 (by cases be <;> simp [repr64])
  have b7 := byte_store_bytes mem a (repr64 be x) 7 (by cases be <;> simp [repr64])
  simp only [Nat.cast_zero, add_zero, Nat.cast_one, Nat.cast_ofNat] at b0 b1 b2 b3 b4 b5 b6 b7
  unfold load64 store64
  rw [b0, b1, b2, b3, b4, b5, b6, b7]
  cases be <;> simp [repr64] <;> omega

theorem repr32_length (be : Bool) (x : Nat) : (repr32 be x).length = 4 := by
  cases be <;> simp [repr32]

theorem repr64_length (be : Bool) (x : Nat) : (repr64 be x).length = 8 := by
  cases be <;> simp [repr64]

theorem mem_span (a p : Int) (n : Nat) : a ∈ span p n ↔ p ≤ a ∧ a < p + (n : Int) := by
  unfold span
  rw [List.mem_map]
  constructor
  · rintro ⟨i, hi, rfl⟩
    rw [List.mem_range] at hi
    omega
  · intro h
    refine ⟨(a - p).toNat, ?_, ?_⟩
    · rw [List.mem_range]; omega
    · omega

theorem int_of_size_t_eq (n : Nat) (hn : n < 2 ^ 31) : int_of_size_t n = (n : Int) := by
  unfold int_of_size_t; omega

theorem size_t_of_int_eq (n : Nat) (hn : n < 2 ^ 31) : size_t_of_int (n : Int) = n := by
  unfold size_t_of_int; omega

/-- The three steps of `ceph_decode_addr` once its length check has passed. -/
theorem ceph_decode_addr_of_room (be : Bool) (n : Nat) (mem : Mem) (p end_ : Int)
    (v : ceph_entity_addr) (h : ¬ p + (sizeof_entity_addr n : Int) > end_) :
    ceph_decode_addr be n mem p end_ v
      = ⟨0, (ceph_decode_copy mem (p + 4 + 4) end_ v.ipaddr (int_of_size_t n)).p,
          { erank := le32_to_cpu be (load32 be mem p),
            nonce := le32_to_cpu be (load32 be mem (p + 4)),
            ipaddr := (ceph_decode_copy mem (p + 4 + 4) end_ v.ipaddr (int_of_size_t n)).v },
          span p 4 ++ span (p + 4) 4
            ++ (ceph_decode_copy mem (p + 4 + 4) end_ v.ipaddr (int_of_size_t n)).reads⟩ := by
  have hs : (sizeof_entity_addr n : Int) = 4 + 4 + (n : Int) := by
    simp [sizeof_entity_addr]
  have h4 : ¬ p + 4 > end_ := by omega
  have h8 : ¬ p + 4 + 4 > end_ := by omega
  unfold ceph_decode_addr
  rw [if_neg h]
  simp only [ceph_decode_32, h4, h8, if_false, ne_eq, not_true_eq_false]

theorem ceph_decode_copy_of_room (mem : Mem) (p end_ : Int) (v : List Nat) (n : Nat)
    (hn : n < 2 ^ 31) (h : p + (n : Int) ≤ end_) :
    ceph_decode_copy mem p end_ v (int_of_size_t n)
      = ⟨0, p + (n : Int), load_bytes mem p n ++ v.drop n, span p n⟩ := by
  unfold ceph_decode_copy
  rw [int_of_size_t_eq n hn, size_t_of_int_eq n hn, if_neg (by omega)]


/-- On a big-endian host `ceph_encode_32` writes four zero bytes whatever
32-bit value it is given: the low half of the 64-bit swap is empty. -/
theorem encode_32_big_endian_zero (mem : Mem) (p end_ : Int) (v : Nat) (hv : v < 2 ^ 32)
    (hroom : 4 ≤ end_ - p) :
    ∃ r : Encoded, ceph_encode_32 true mem p end_ v = Outcome.returned r ∧
      load_bytes r.mem p 4 = [0, 0, 0, 0] := by
  have h : ¬ p + 4 > end_ := by omega
  have e : bswap64 v = 2 ^ 32 * ((v % 256) * 2 ^ 24 + (v / 2 ^ 8 % 256) * 2 ^ 16
      + (v / 2 ^ 16 % 256) * 2 ^ 8 + v / 2 ^ 24 % 256) := by
    unfold bswap64; omega
  have hz : cpu_to_le64 true v % 2 ^ 32 = 0 := by
    simp only [cpu_to_le64, if_true]
    rw [e]; exact Nat.mul_mod_right _ _
  refine ⟨⟨0, p + 4, store32 true mem p (cpu_to_le64 true v % 2 ^ 32)⟩, ?_, ?_⟩
  · unfold ceph_encode_32; rw [if_neg h]
  · show load_bytes (store32 true mem p (cpu_to_le64 true v % 2 ^ 32)) p 4 = [0, 0, 0, 0]
    rw [hz]
    have b0 := byte_store_bytes mem p (repr32 true 0) 0 (by decide)
    have b1 := byte_store_bytes mem p (repr32 true 0) 1 (by decide)
    have b2 := byte_store_bytes mem p (repr32 true 0) 2 (by decide)
    have b3 := byte_store_bytes mem p (repr32 true 0) 3 (by decide)
    simp only [Nat.cast_zero, add_zero, Nat.cast_one, Nat.cast_ofNat] at b0 b1 b2 b3
    simp only [load_bytes, store32, List.range, List.range.loop, List.map, Nat.cast_zero,
      add_zero, Nat.cast_one, Nat.cast_ofNat, b0, b1, b2, b3]
    decide

/-- On a little-endian host `ceph_encode_32` writes the four little-endian bytes
of `v`, advances the cursor by 4, changes no other byte, and `ceph_decode_32`
reads `v` back. -/
theorem encode_32_little_endian_host (mem : Mem) (p end_ : Int) (v v0 : Nat) (hv : v < 2 ^ 32)
    (hroom : 4 ≤ end_ - p) :
    ∃ r : Encoded, ceph_encode_32 false mem p end_ v = Outcome.returned r ∧
      r.ret = 0 ∧ r.p = p + 4 ∧
      byte r.mem p = v % 256 ∧ byte r.mem (p + 1) = v / 2 ^ 8 % 256 ∧
      byte r.mem (p + 2) = v / 2 ^ 16 % 256 ∧ byte r.mem (p + 3) = v / 2 ^ 24 % 256 ∧
      (∀ a : Int, a < p ∨ p + 4 ≤ a → r.mem a = mem a) ∧
      (ceph_decode_32 false r.mem p end_ v0).ret = 0 ∧
      (ceph_decode_32 false r.mem p end_ v0).v = v := by
  have h : ¬ p + 4 > end_ := by omega
  have hz : cpu_to_le64 false v % 2 ^ 32 = v := by
    simp only [cpu_to_le64, if_false, Bool.false_eq_true]; omega
  have b0 := byte_store_bytes mem p (repr32 false v) 0 (by simp [repr32])
  have b1 := byte_store_bytes mem p (repr32 false v) 1 (by simp [repr32])
  have b2 := byte_store_bytes mem p (repr32 false v) 2 (by simp [repr32])
  have b3 := byte_store_bytes mem p (repr32 false v) 3 (by simp [repr32])
  simp [repr32] at b0 b1 b2 b3
  refine ⟨⟨0, p + 4, store32 false mem p (cpu_to_le64 false v % 2 ^ 32)⟩, ?_, rfl, rfl,
    ?_, ?_, ?_, ?_, ?_, ?_, ?_⟩
  · unfold ceph_encode_32; rw [if_neg h]
  · show byte (store32 false mem p (cpu_to_le64 false v % 2 ^ 32)) p = _
    rw [hz]; exact b0
  · show byte (store32 false mem p (cpu_to_le64 false v % 2 ^ 32)) (p + 1) = _
    rw [hz]; exact b1
  · show byte (store32 false mem p (cpu_to_le64 false v % 2 ^ 32)) (p + 2) = _
    rw [hz]; exact b2
  · show byte (store32 false mem p (cpu_to_le64 false v % 2 ^ 32)) (p + 3) = _
    rw [hz]; exact b3
  · intro a ha
    exact store_bytes_outside mem p _ a (by rw [repr32_length]; omega)
  · unfold ceph_decode_32; rw [if_neg h]
  · unfold ceph_decode_32; rw [if_neg h]
    show le32_to_cpu false (load32 false (store32 false mem p (cpu_to_le64 false v % 2 ^ 32)) p)
      = v
    rw [hz, load32_store32]
    simp only [le32_to_cpu, if_false, Bool.false_eq_true]
    omega

/-! ## The claims -/

/-- C1: each of `ceph_decode_16/32/64` returns `-EINVAL` exactly when fewer than
2, 4, 8 bytes remain between the cursor and `end`; on error the cursor and the
output are unchanged; otherwise it returns 0 and advances the cursor by
exactly 2, 4, 8. -/
theorem decode_int_fails_iff_truncated (be : Bool) (mem : Mem) (p end_ : Int) (v : Nat) :
    (((ceph_decode_16 be mem p end_ v).ret = -EINVAL ↔ end_ - p < 2) ∧
      ((ceph_decode_16 be mem p end_ v).ret = -EINVAL →
        (ceph_decode_16 be mem p end_ v).p = p ∧ (ceph_decode_16 be mem p end_ v).v = v) ∧
      ((ceph_decode_16 be mem p end_ v).ret ≠ -EINVAL →
        (ceph_decode_16 be mem p end_ v).ret = 0 ∧ (ceph_decode_16 be mem p end_ v).p = p + 2)) ∧
    (((ceph_decode_32 be mem p end_ v).ret = -EINVAL ↔ end_ - p < 4) ∧
      ((ceph_decode_32 be mem p end_ v).ret = -EINVAL →
        (ceph_decode_32 be mem p end_ v).p = p ∧ (ceph_decode_32 be mem p end_ v).v = v) ∧
      ((ceph_decode_32 be mem p end_ v).ret ≠ -EINVAL →
        (ceph_decode_32 be mem p end_ v).ret = 0 ∧ (ceph_decode_32 be mem p end_ v).p = p + 4)) ∧
    (((ceph_decode_64 be mem p end_ v).ret = -EINVAL ↔ end_ - p < 8) ∧
      ((ceph_decode_64 be mem p end_ v).ret = -EINVAL →
        (ceph_decode_64 be mem p end_ v).p = p ∧ (ceph_decode_64 be mem p end_ v).v = v) ∧
      ((ceph_decode_64 be mem p end_ v).ret ≠ -EINVAL →
        (ceph_decode_64 be mem p end_ v).ret = 0 ∧ (ceph_decode_64 be mem p end_ v).p = p + 8)) := by
  refine ⟨?_, ?_, ?_⟩
  · unfold ceph_decode_16
    by_cases h : p + 2 > end_
    · simp [h]; omega
    · simp [h, EINVAL]; omega
  · unfold ceph_decode_32
    by_cases h : p + 4 > end_
    · simp [h]; omega
    · simp [h, EINVAL]; omega
  · unfold ceph_decode_64
    by_cases h : p + 8 > end_
    · simp [h]; omega
    · simp [h, EINVAL]; omega

/-- C2: whenever `ceph_decode_16/32/64` succeeds, the value is the little-endian
reading of the bytes at the cursor, the sum of `b_i * 256 ^ i`, on either host
byte order. -/
theorem decode_int_value_little_endian (be : Bool) (mem : Mem) (p end_ : Int) (v : Nat) :
    ((ceph_decode_16 be mem p end_ v).ret = 0 →
      (ceph_decode_16 be mem p end_ v).v
        = ∑ i ∈ Finset.range 2, byte mem (p + (i : Int)) * 256 ^ i) ∧
    ((ceph_decode_32 be mem p end_ v).ret = 0 →
      (ceph_decode_32 be mem p end_ v).v
        = ∑ i ∈ Finset.range 4, byte mem (p + (i : Int)) * 256 ^ i) ∧
    ((ceph_decode_64 be mem p end_ v).ret = 0 →
      (ceph_decode_64 be mem p end_ v).v
        = ∑ i ∈ Finset.range 8, byte mem (p + (i : Int)) * 256 ^ i) := by
  refine ⟨?_, ?_, ?_⟩
  · unfold ceph_decode_16
    by_cases h : p + 2 > end_
    · simp only [h, if_true, EINVAL]; intro e; exact absurd e (by decide)
    · simp only [h, if_false]
      intro _
      rw [le16_load16]
      simp [Finset.sum_range_succ]
  · unfold ceph_decode_32
    by_cases h : p + 4 > end_
    · simp only [h, if_true, EINVAL]; intro e; exact absurd e (by decide)
    · simp only [h, if_false]
      intro _
      rw [le32_load32]
      simp [Finset.sum_range_succ]
  · unfold ceph_decode_64
    by_cases h : p + 8 > end_
    · simp only [h, if_true, EINVAL]; intro e; exact absurd e (by decide)
    · simp only [h, if_false]
      intro _
      rw [le64_load64]
      simp [Finset.sum_range_succ]

theorem decode_int_value_little_endian_witness :
    (ceph_decode_16 true (mem_of [1, 2, 3, 4, 5, 6, 7, 8]) 0 8 0).ret = 0 ∧
    (ceph_decode_16 true (mem_of [1, 2, 3, 4, 5, 6, 7, 8]) 0 8 0).v
        = ∑ i ∈ Finset.range 2, byte (mem_of [1, 2, 3, 4, 5, 6, 7, 8]) (0 + (i : Int)) * 256 ^ i ∧
    (ceph_decode_32 true (mem_of [1, 2, 3, 4, 5, 6, 7, 8]) 0 8 0).v
        = ∑ i ∈ Finset.range 4, byte (mem_of [1, 2, 3, 4, 5, 6, 7, 8]) (0 + (i : Int)) * 256 ^ i ∧
    (ceph_decode_64 true (mem_of [1, 2, 3, 4, 5, 6, 7, 8]) 0 8 0).v
        = ∑ i ∈ Finset.range 8, byte (mem_of [1, 2, 3, 4, 5, 6, 7, 8]) (0 + (i : Int)) * 256 ^ i :=
  ⟨by decide,
   (decode_int_value_little_endian true (mem_of [1, 2, 3, 4, 5, 6, 7, 8]) 0 8 0).1 (by decide),
   (decode_int_value_little_endian true (mem_of [1, 2, 3, 4, 5, 6, 7, 8]) 0 8 0).2.1 (by decide),
   (decode_int_value_little_endian true (mem_of [1, 2, 3, 4, 5, 6, 7, 8]) 0 8 0).2.2 (by decide)⟩

/-- C3: for every header whose fields are in the range of their C types and for
either host byte order, `ceph_decode_header` applied to the result of
`ceph_encode_header(to, x)` gives back `x`, field for field. -/
theorem decode_header_encode_header (be : Bool) (to_ x : ceph_msg_header) (hx : x.wf) :
    ceph_decode_header be (ceph_encode_header be to_ x) = x := by
  obtain ⟨h1, h2, ⟨⟨h3, h4⟩, h5, h6⟩, ⟨⟨h7, h8⟩, h9, h10⟩, h11, h12, h13⟩ := hx
  obtain ⟨seq, type, ⟨⟨st, sn⟩, ⟨se, so, si⟩⟩, ⟨⟨dt, dn⟩, ⟨de, do_, di⟩⟩, fl, dof, dl⟩ := x
  simp only at h1 h2 h3 h4 h5 h6 h7 h8 h9 h10 h11 h12 h13
  simp only [ceph_decode_header, ceph_encode_header, ceph_decode_inst, ceph_encode_inst,
    le32_cpu_to_le32, cpu_to_le32_twice, cpu_to_le16_twice, h1, h2, h3, h4, h5, h6, h7, h8, h9,
    h10, h11, h12, h13]

theorem decode_header_encode_header_witness :
    hdr0.wf ∧ ceph_decode_header true (ceph_encode_header true hdr0 hdr0) = hdr0 :=
  ⟨by decide, decode_header_encode_header true hdr0 hdr0 (by decide)⟩

/-- C4, as stated, fails: with fewer bytes left than the value needs, the encode
helpers give no result at all, so no error result either. -/
theorem encode_short_buffer_no_result :
    ((0 : Int) + 8 > 4 ∧ ceph_encode_64 false (mem_of []) 0 4 1 = Outcome.bug ∧
      ¬ ∃ r : Encoded, ceph_encode_64 false (mem_of []) 0 4 1 = Outcome.returned r) ∧
    ((0 : Int) + 4 > 3 ∧ ceph_encode_32 false (mem_of []) 0 3 1 = Outcome.bug ∧
      ¬ ∃ r : Encoded, ceph_encode_32 false (mem_of []) 0 3 1 = Outcome.returned r) ∧
    ((0 : Int) + 12 + 1 > 12 ∧ ceph_encode_filepath false (mem_of []) 0 12 1 [97] = Outcome.bug ∧
      ¬ ∃ r : Encoded, ceph_encode_filepath false (mem_of []) 0 12 1 [97] = Outcome.returned r) := by
  refine ⟨⟨by decide, rfl, ?_⟩, ⟨by decide, rfl, ?_⟩, ⟨by decide, rfl, ?_⟩⟩
  · rintro ⟨r, h⟩; exact Outcome.noConfusion h
  · rintro ⟨r, h⟩; exact Outcome.noConfusion h
  · rintro ⟨r, h⟩; exact Outcome.noConfusion h

/-- C4, amended: each encode helper returns 0 exactly when enough bytes remain
between the cursor and `end` (8, 4, and 12 + strlen(path) for a path shorter
than `2 ^ 32`); with fewer bytes it does not return: `BUG_ON` fires. -/
theorem encode_returns_iff_room (be : Bool) (mem : Mem) (p end_ : Int) (v : Nat)
    (path : List Nat) (hpath : path.length < 2 ^ 32) :
    (((∃ r : Encoded, ceph_encode_64 be mem p end_ v = Outcome.returned r ∧ r.ret = 0)
        ↔ 8 ≤ end_ - p) ∧
      (ceph_encode_64 be mem p end_ v = Outcome.bug ↔ end_ - p < 8)) ∧
    (((∃ r : Encoded, ceph_encode_32 be mem p end_ v = Outcome.returned r ∧ r.ret = 0)
        ↔ 4 ≤ end_ - p) ∧
      (ceph_encode_32 be mem p end_ v = Outcome.bug ↔ end_ - p < 4)) ∧
    (((∃ r : Encoded, ceph_encode_filepath be mem p end_ v path = Outcome.returned r ∧ r.ret = 0)
        ↔ 12 + (path.length : Int) ≤ end_ - p) ∧
      (ceph_encode_filepath be mem p end_ v path = Outcome.bug
        ↔ end_ - p < 12 + (path.length : Int))) := by
  refine ⟨?_, ?_, ?_⟩
  · unfold ceph_encode_64
    by_cases h : p + 8 > end_
    · simp [h]; omega
    · simp [h]; omega
  · unfold ceph_encode_32
    by_cases h : p + 4 > end_
    · simp [h]; omega
    · simp [h]; omega
  · unfold ceph_encode_filepath
    rw [Nat.mod_eq_of_lt hpath]
    by_cases h : p + (sizeof_ino : Int) + 4 + (path.length : Int) > end_
    · simp only [h, if_true]
      simp [sizeof_ino] at h ⊢
      omega
    · have h8 : ¬ p + 8 > end_ := by simp [sizeof_ino] at h; omega
      have h4 : ¬ p + 8 + 4 > end_ := by simp [sizeof_ino] at h; omega
      simp only [h, if_false, ceph_encode_64, h8, ceph_encode_32, h4]
      simp [sizeof_ino] at h ⊢
      omega

theorem encode_returns_iff_room_witness :
    [97, 98, 99].length < 2 ^ 32 ∧
    (∃ r : Encoded,
      ceph_encode_filepath false (mem_of []) 0 20 1 [97, 98, 99] = Outcome.returned r ∧
        r.ret = 0) ∧
    ceph_encode_filepath false (mem_of []) 0 14 1 [97, 98, 99] = Outcome.bug :=
  ⟨by decide,
   (encode_returns_iff_room false (mem_of []) 0 20 1 [97, 98, 99] (by decide)).2.2.1.2
     (by decide),
   (encode_returns_iff_room false (mem_of []) 0 14 1 [97, 98, 99] (by decide)).2.2.2.2
     (by decide)⟩

/-- C5: on a big-endian host `ceph_encode_32` of the value 1 writes four zero
bytes, and `ceph_decode_32` at the same position gives 0. -/
theorem encode_32_big_endian_loses_value :
    ∃ r : Encoded,
      ceph_encode_32 true (mem_of [170, 170, 170, 170]) 0 4 1 = Outcome.returned r ∧
      load_bytes r.mem 0 4 = [0, 0, 0, 0] ∧
      (ceph_decode_32 true r.mem 0 4 7).ret = 0 ∧
      (ceph_decode_32 true r.mem 0 4 7).v = 0 :=
  ⟨_, rfl, by decide, by decide, by decide⟩

/-- C6: for a 64-bit value and a buffer with at least 8 bytes left,
`ceph_encode_64` returns 0, advances the cursor by 8 and changes no byte outside
those 8; `ceph_decode_64` from the same position then returns 0 with the value
`v` and advances the cursor by 8. -/
theorem decode_64_encode_64 (be : Bool) (mem : Mem) (p end_ : Int) (v v0 : Nat)
    (hv : v < 2 ^ 64) (hroom : 8 ≤ end_ - p) :
    ∃ r : Encoded, ceph_encode_64 be mem p end_ v = Outcome.returned r ∧
      r.ret = 0 ∧ r.p = p + 8 ∧
      (∀ a : Int, a < p ∨ p + 8 ≤ a → r.mem a = mem a) ∧
      (ceph_decode_64 be r.mem p end_ v0).ret = 0 ∧
      (ceph_decode_64 be r.mem p end_ v0).v = v ∧
      (ceph_decode_64 be r.mem p end_ v0).p = p + 8 := by
  have h : ¬ p + 8 > end_ := by omega
  refine ⟨⟨0, p + 8, store64 be mem p (cpu_to_le64 be v)⟩, ?_, rfl, rfl, ?_, ?_, ?_, ?_⟩
  · unfold ceph_encode_64; rw [if_neg h]
  · intro a ha
    exact store_bytes_outside mem p _ a (by rw [repr64_length]; omega)
  · unfold ceph_decode_64; rw [if_neg h]
  · unfold ceph_decode_64; rw [if_neg h]
    show le64_to_cpu be (load64 be (store64 be mem p (cpu_to_le64 be v)) p) = v
    rw [load64_store64]
    have hlt : cpu_to_le64 be v < 2 ^ 64 := by
      cases be
      · simp only [cpu_to_le64, if_false, Bool.false_eq_true]; omega
      · simp only [cpu_to_le64, if_true, bswap64]; omega
    rw [Nat.mod_eq_of_lt hlt]
    exact le64_cpu_to_le64 be v hv
  · unfold ceph_decode_64; rw [if_neg h]

theorem decode_64_encode_64_witness :
    ∃ r : Encoded,
      ceph_encode_64 true (mem_of []) 0 8 0x0102030405060708 = Outcome.returned r ∧
      r.ret = 0 ∧ r.p = 0 + 8 ∧
      (∀ a : Int, a < 0 ∨ 0 + 8 ≤ a → r.mem a = mem_of [] a) ∧
      (ceph_decode_64 true r.mem 0 8 0).ret = 0 ∧
      (ceph_decode_64 true r.mem 0 8 0).v = 0x0102030405060708 ∧
      (ceph_decode_64 true r.mem 0 8 0).p = 0 + 8 :=
  decode_64_encode_64 true (mem_of []) 0 8 0x0102030405060708 0 (by decide) (by decide)

/-- C7: `ceph_decode_addr` and `ceph_decode_name` return `-EINVAL` exactly when
fewer bytes remain than the fixed size of the structure (4 + 4 + sizeof(ipaddr),
and 8) and return 0 otherwise; on failure the cursor and every field of the
output are unchanged and nothing was read. -/
theorem decode_addr_name_fail_iff_truncated (be : Bool) (n : Nat) (mem : Mem) (p end_ : Int)
    (va : ceph_entity_addr) (vn : ceph_entity_name) :
    (((ceph_decode_addr be n mem p end_ va).ret = -EINVAL ↔ end_ - p < 4 + 4 + (n : Int)) ∧
      ((ceph_decode_addr be n mem p end_ va).ret = 0 ↔ 4 + 4 + (n : Int) ≤ end_ - p) ∧
      ((ceph_decode_addr be n mem p end_ va).ret ≠ 0 →
        (ceph_decode_addr be n mem p end_ va).p = p ∧
        (ceph_decode_addr be n mem p end_ va).v = va ∧
        (ceph_decode_addr be n mem p end_ va).reads = [])) ∧
    (((ceph_decode_name be mem p end_ vn).ret = -EINVAL ↔ end_ - p < 8) ∧
      ((ceph_decode_name be mem p end_ vn).ret = 0 ↔ 8 ≤ end_ - p) ∧
      ((ceph_decode_name be mem p end_ vn).ret ≠ 0 →
        (ceph_decode_name be mem p end_ vn).p = p ∧
        (ceph_decode_name be mem p end_ vn).v = vn ∧
        (ceph_decode_name be mem p end_ vn).reads = [])) := by
  have hs : (sizeof_entity_addr n : Int) = 4 + 4 + (n : Int) := by
    simp [sizeof_entity_addr]
  constructor
  · by_cases h : p + (sizeof_entity_addr n : Int) > end_
    · have e : ceph_decode_addr be n mem p end_ va = ⟨-EINVAL, p, va, []⟩ := by
        unfold ceph_decode_addr; rw [if_pos h]
      rw [e]
      simp [EINVAL]; omega
    · rw [ceph_decode_addr_of_room be n mem p end_ va h]
      simp [EINVAL]; omega
  · unfold ceph_decode_name
    by_cases h : p + (sizeof_entity_name : Int) > end_
    · simp [h, EINVAL]; simp [sizeof_entity_name] at h; omega
    · simp [h, EINVAL]; simp [sizeof_entity_name] at h; omega

/-- C8: whenever `ceph_decode_addr` succeeds, `erank` is the little-endian value
of the first 4 bytes at the cursor, `nonce` that of the next 4, `ipaddr` the
following sizeof(ipaddr) bytes as they are, and the cursor has advanced by
8 + sizeof(ipaddr). -/
theorem decode_addr_fields (be : Bool) (n : Nat) (mem : Mem) (p end_ : Int)
    (v : ceph_entity_addr) (hn : n < 2 ^ 31) (hlen : v.ipaddr.length = n)
    (hok : (ceph_decode_addr be n mem p end_ v).ret = 0) :
    (ceph_decode_addr be n mem p end_ v).v.erank
        = ∑ i ∈ Finset.range 4, byte mem (p + (i : Int)) * 256 ^ i ∧
    (ceph_decode_addr be n mem p end_ v).v.nonce
        = ∑ i ∈ Finset.range 4, byte mem (p + 4 + (i : Int)) * 256 ^ i ∧
    (ceph_decode_addr be n mem p end_ v).v.ipaddr = load_bytes mem (p + 8) n ∧
    (ceph_decode_addr be n mem p end_ v).p = p + 8 + (n : Int) := by
  have hs : (sizeof_entity_addr n : Int) = 4 + 4 + (n : Int) := by
    simp [sizeof_entity_addr]
  by_cases h : p + (sizeof_entity_addr n : Int) > end_
  · have e : ceph_decode_addr be n mem p end_ v = ⟨-EINVAL, p, v, []⟩ := by
      unfold ceph_decode_addr; rw [if_pos h]
    rw [e] at hok
    have hne : (-EINVAL : Int) ≠ 0 := by decide
    exact absurd hok hne
  · rw [ceph_decode_addr_of_room be n mem p end_ v h,
      ceph_decode_copy_of_room mem (p + 4 + 4) end_ v.ipaddr n hn (by omega)]
    have hd : List.drop n v.ipaddr = [] := List.drop_eq_nil_of_le (by omega)
    refine ⟨?_, ?_, ?_, ?_⟩
    · show le32_to_cpu be (load32 be mem p) = _
      rw [le32_load32]; simp [Finset.sum_range_succ]
    · show le32_to_cpu be (load32 be mem (p + 4)) = _
      rw [le32_load32]; simp [Finset.sum_range_succ, add_assoc]
    · show load_bytes mem (p + 4 + 4) n ++ List.drop n v.ipaddr = _
      rw [hd, List.append_nil, add_assoc]; rfl
    · show p + 4 + 4 + (n : Int) = _
      omega

theorem decode_addr_fields_witness :
    (4 : Nat) < 2 ^ 31 ∧
    (ceph_decode_addr true 4 (mem_of [1, 0, 0, 0, 2, 1, 0, 0, 9, 8, 7, 6]) 0 12
        ⟨0, 0, [0, 0, 0, 0]⟩).ret = 0 ∧
    (ceph_decode_addr true 4 (mem_of [1, 0, 0, 0, 2, 1, 0, 0, 9, 8, 7, 6]) 0 12
        ⟨0, 0, [0, 0, 0, 0]⟩).v.erank
      = ∑ i ∈ Finset.range 4, byte (mem_of [1, 0, 0, 0, 2, 1, 0, 0, 9, 8, 7, 6]) (0 + (i : Int)) * 256 ^ i ∧
    (ceph_decode_addr true 4 (mem_of [1, 0, 0, 0, 2, 1, 0, 0, 9, 8, 7, 6]) 0 12
        ⟨0, 0, [0, 0, 0, 0]⟩).v.nonce
      = ∑ i ∈ Finset.range 4, byte (mem_of [1, 0, 0, 0, 2, 1, 0, 0, 9, 8, 7, 6]) (0 + 4 + (i : Int)) * 256 ^ i ∧
    (ceph_decode_addr true 4 (mem_of [1, 0, 0, 0, 2, 1, 0, 0, 9, 8, 7, 6]) 0 12
        ⟨0, 0, [0, 0, 0, 0]⟩).v.ipaddr
      = load_bytes (mem_of [1, 0, 0, 0, 2, 1, 0, 0, 9, 8, 7, 6]) (0 + 8) 4 ∧
    (ceph_decode_addr true 4 (mem_of [1, 0, 0, 0, 2, 1, 0, 0, 9, 8, 7, 6]) 0 12
        ⟨0, 0, [0, 0, 0, 0]⟩).p = 0 + 8 + ((4 : Nat) : Int) :=
  ⟨by decide, by decide,
   decode_addr_fields true 4 (mem_of [1, 0, 0, 0, 2, 1, 0, 0, 9, 8, 7, 6]) 0 12 ⟨0, 0, [0, 0, 0, 0]⟩
     (by decide) (by decide) (by decide)⟩

/-- C9: with at least 8 bytes left, `ceph_decode_name` gives what two successive
`ceph_decode_32` calls give: all three return 0, `type` and `num` are the two
decoded values, which are the little-endian values of the first and the next 4
bytes, and the cursor ends 8 bytes further. -/
theorem decode_name_eq_two_decode_32 (be : Bool) (mem : Mem) (p end_ : Int)
    (v : ceph_entity_name) (hroom : 8 ≤ end_ - p) :
    (ceph_decode_32 be mem p end_ v.type).ret = 0 ∧
    (ceph_decode_32 be mem (ceph_decode_32 be mem p end_ v.type).p end_ v.num).ret = 0 ∧
    (ceph_decode_name be mem p end_ v).ret = 0 ∧
    (ceph_decode_name be mem p end_ v).v.type = (ceph_decode_32 be mem p end_ v.type).v ∧
    (ceph_decode_name be mem p end_ v).v.num
      = (ceph_decode_32 be mem (ceph_decode_32 be mem p end_ v.type).p end_ v.num).v ∧
    (ceph_decode_name be mem p end_ v).p
      = (ceph_decode_32 be mem (ceph_decode_32 be mem p end_ v.type).p end_ v.num).p ∧
    (ceph_decode_name be mem p end_ v).v.type
      = ∑ i ∈ Finset.range 4, byte mem (p + (i : Int)) * 256 ^ i ∧
    (ceph_decode_name be mem p end_ v).v.num
      = ∑ i ∈ Finset.range 4, byte mem (p + 4 + (i : Int)) * 256 ^ i ∧
    (ceph_decode_name be mem p end_ v).p = p + 8 := by
  have h4 : ¬ p + 4 > end_ := by omega
  have h44 : ¬ p + 4 + 4 > end_ := by omega
  have h8 : ¬ p + (sizeof_entity_name : Int) > end_ := by
    simp [sizeof_entity_name]; omega
  have e1 : ceph_decode_32 be mem p end_ v.type
      = ⟨0, p + 4, le32_to_cpu be (load32 be mem p), span p 4⟩ := by
    unfold ceph_decode_32; rw [if_neg h4]
  have e2 : ceph_decode_32 be mem (p + 4) end_ v.num
      = ⟨0, p + 4 + 4, le32_to_cpu be (load32 be mem (p + 4)), span (p + 4) 4⟩ := by
    unfold ceph_decode_32; rw [if_neg h44]
  have e3 : ceph_decode_name be mem p end_ v
      = ⟨0, p + 4 + 4,
          { type := le32_to_cpu be (load32 be mem p),
            num := le32_to_cpu be (load32 be mem (p + 4)) },
          span p 4 ++ span (p + 4) 4⟩ := by
    unfold ceph_decode_name; rw [if_neg h8]
  rw [e1, e2, e3]
  refine ⟨rfl, rfl, rfl, rfl, rfl, rfl, ?_, ?_, ?_⟩
  · show le32_to_cpu be (load32 be mem p) = _
    rw [le32_load32]; simp [Finset.sum_range_succ]
  · show le32_to_cpu be (load32 be mem (p + 4)) = _
    rw [le32_load32]; simp [Finset.sum_range_succ, add_assoc]
  · show p + 4 + 4 = p + 8
    omega

theorem decode_name_eq_two_decode_32_witness :
    (ceph_decode_name false (mem_of [4, 0, 0, 0, 1, 2, 0, 0]) 0 8 ⟨0, 0⟩).ret = 0 ∧
    (ceph_decode_name false (mem_of [4, 0, 0, 0, 1, 2, 0, 0]) 0 8 ⟨0, 0⟩).v.type
      = (ceph_decode_32 false (mem_of [4, 0, 0, 0, 1, 2, 0, 0]) 0 8 0).v ∧
    (ceph_decode_name false (mem_of [4, 0, 0, 0, 1, 2, 0, 0]) 0 8 ⟨0, 0⟩).p = 0 + 8 :=
  have h := decode_name_eq_two_decode_32 false (mem_of [4, 0, 0, 0, 1, 2, 0, 0]) 0 8 ⟨0, 0⟩
    (by decide)
  ⟨h.2.2.1, h.2.2.2.1, h.2.2.2.2.2.2.2.2⟩

/-- C10: every address read by `ceph_decode_16/32/64`, `ceph_decode_name` and
`ceph_decode_addr` lies in `[p, end)`; and once the length check of
`ceph_decode_addr` has passed, its two `ceph_decode_32` calls and its
`ceph_decode_copy` call all return 0. -/
theorem decoders_read_within_bounds (be : Bool) (n : Nat) (mem : Mem) (p end_ : Int) (v : Nat)
    (vn : ceph_entity_name) (va : ceph_entity_addr) (hn : n < 2 ^ 31) :
    (∀ a ∈ (ceph_decode_16 be mem p end_ v).reads, p ≤ a ∧ a < end_) ∧
    (∀ a ∈ (ceph_decode_32 be mem p end_ v).reads, p ≤ a ∧ a < end_) ∧
    (∀ a ∈ (ceph_decode_64 be mem p end_ v).reads, p ≤ a ∧ a < end_) ∧
    (∀ a ∈ (ceph_decode_name be mem p end_ vn).reads, p ≤ a ∧ a < end_) ∧
    (∀ a ∈ (ceph_decode_addr be n mem p end_ va).reads, p ≤ a ∧ a < end_) ∧
    (4 + 4 + (n : Int) ≤ end_ - p →
      (ceph_decode_32 be mem p end_ va.erank).ret = 0 ∧
      (ceph_decode_32 be mem (p + 4) end_ va.nonce).ret = 0 ∧
      (ceph_decode_copy mem (p + 4 + 4) end_ va.ipaddr (int_of_size_t n)).ret = 0) := by
  have hs : (sizeof_entity_addr n : Int) = 4 + 4 + (n : Int) := by
    simp [sizeof_entity_addr]
  refine ⟨?_, ?_, ?_, ?_, ?_, ?_⟩
  · unfold ceph_decode_16
    by_cases h : p + 2 > end_
    · simp [h]
    · rw [if_neg h]; intro a ha
      have := (mem_span a p 2).1 ha
      omega
  · unfold ceph_decode_32
    by_cases h : p + 4 > end_
    · simp [h]
    · rw [if_neg h]; intro a ha
      have := (mem_span a p 4).1 ha
      omega
  · unfold ceph_decode_64
    by_cases h : p + 8 > end_
    · simp [h]
    · rw [if_neg h]; intro a ha
      have := (mem_span a p 8).1 ha
      omega
  · unfold ceph_decode_name
    by_cases h : p + (sizeof_entity_name : Int) > end_
    · simp [h]
    · rw [if_neg h]; intro a ha
      have h8 : p + 8 ≤ end_ := by simp [sizeof_entity_name] at h; omega
      rcases List.mem_append.1 ha with ha | ha
      · have := (mem_span a p 4).1 ha
        omega
      · have := (mem_span a (p + 4) 4).1 ha
        omega
  · by_cases h : p + (sizeof_entity_addr n : Int) > end_
    · have e : ceph_decode_addr be n mem p end_ va = ⟨-EINVAL, p, va, []⟩ := by
        unfold ceph_decode_addr; rw [if_pos h]
      rw [e]; intro a ha; cases ha
    · rw [ceph_decode_addr_of_room be n mem p end_ va h,
        ceph_decode_copy_of_room mem (p + 4 + 4) end_ va.ipaddr n hn (by omega)]
      intro a ha
      rcases List.mem_append.1 ha with ha | ha
      · rcases List.mem_append.1 ha with ha | ha
        · have := (mem_span a p 4).1 ha
          omega
        · have := (mem_span a (p + 4) 4).1 ha
          omega
      · have := (mem_span a (p + 4 + 4) n).1 ha
        omega
  · intro hroom
    have h4 : ¬ p + 4 > end_ := by omega
    have h44 : ¬ p + 4 + 4 > end_ := by omega
    refine ⟨?_, ?_, ?_⟩
    · unfold ceph_decode_32; rw [if_neg h4]
    · unfold ceph_decode_32; rw [if_neg h44]
    · rw [ceph_decode_copy_of_room mem (p + 4 + 4) end_ va.ipaddr n hn (by omega)]

theorem decoders_read_within_bounds_witness :
    (4 : Nat) < 2 ^ 31 ∧
    (ceph_decode_addr true 4 (mem_of [1, 0, 0, 0, 2, 1, 0, 0, 9, 8, 7, 6]) 0 12
        ⟨0, 0, [0, 0, 0, 0]⟩).reads = [0, 1, 2, 3, 4, 5, 6, 7, 8, 9, 10, 11] ∧
    (∀ a ∈ (ceph_decode_addr true 4 (mem_of [1, 0, 0, 0, 2, 1, 0, 0, 9, 8, 7, 6]) 0 12
        ⟨0, 0, [0, 0, 0, 0]⟩).reads, 0 ≤ a ∧ a < 12) :=
  ⟨by decide, by decide,
   (decoders_read_within_bounds true 4 (mem_of [1, 0, 0, 0, 2, 1, 0, 0, 9, 8, 7, 6]) 0 12 0
      ⟨0, 0⟩ ⟨0, 0, [0, 0, 0, 0]⟩ (by decide)).2.2.2.2.1⟩

/-! ## File paths, connection states, messages and names -/

theorem load_bytes_store_bytes_disjoint (mem : Mem) (a : Int) (bs : List Nat) (b : Int) (n : Nat)
    (h : b + (n : Int) ≤ a ∨ a + (bs.length : Int) ≤ b) :
    load_bytes (store_bytes mem a bs) b n = load_bytes mem b n := by
  unfold load_bytes
  apply List.map_congr_left
  intro i hi
  rw [List.mem_range] at hi
  unfold byte
  rw [store_bytes_outside mem a bs (b + (i : Int)) (by omega)]

theorem load_bytes_store_bytes_same (mem : Mem) (a : Int) (bs : List Nat) :
    load_bytes (store_bytes mem a bs) a bs.length = bs.map (fun b => b % 256) := by
  apply List.ext_getElem
  · rw [load_bytes_length, List.length_map]
  · intro i h1 h2
    have hi : i < bs.length := by rw [load_bytes_length] at h1; exact h1
    unfold load_bytes
    rw [List.getElem_map, List.getElem_range, List.getElem_map, byte_store_bytes mem a bs i hi,
      List.getD_eq_getElem bs 0 hi]

theorem map_mod_of_bytes (bs : List Nat) (h : ∀ b ∈ bs, b < 256) :
    bs.map (fun b => b % 256) = bs := by
  induction bs with
  | nil => rfl
  | cons x xs ih =>
    rw [List.map_cons, ih (fun b hb => h b (List.mem_cons_of_mem x hb)),
      Nat.mod_eq_of_lt (h x (List.mem_cons_self x xs))]

/-- The three stores of `ceph_encode_filepath` once its length check has passed. -/
theorem ceph_encode_filepath_of_room (be : Bool) (mem : Mem) (p end_ : Int) (ino : Nat)
    (path : List Nat) (hlen : path.length < 2 ^ 32)
    (hroom : 12 + (path.length : Int) ≤ end_ - p) :
    ceph_encode_filepath be mem p end_ ino path
      = Outcome.returned ⟨0, p + 8 + 4 + (path.length : Int),
          store_bytes
            (store32 be (store64 be mem p (cpu_to_le64 be ino)) (p + 8)
              (cpu_to_le64 be path.length % 2 ^ 32))
            (p + 8 + 4) path⟩ := by
  have h : ¬ p + (sizeof_ino : Int) + 4 + (path.length : Int) > end_ := by
    simp [sizeof_ino]; omega
  have h8 : ¬ p + 8 > end_ := by omega
  have h4 : ¬ p + 8 + 4 > end_ := by omega
  unfold ceph_encode_filepath
  rw [Nat.mod_eq_of_lt hlen]
  simp only [h, if_false, ceph_encode_64, h8, ceph_encode_32, h4, List.take_length]

/-- Once the length check of `ceph_encode_filepath` has passed, neither the nested
`ceph_encode_64` nor the nested `ceph_encode_32` can hit its `BUG_ON`, on either
host byte order. -/
theorem encode_filepath_nested_checks (be : Bool) (mem : Mem) (p end_ : Int) (ino : Nat)
    (path : List Nat) (hroom : 12 + ((path.length % 2 ^ 32 : Nat) : Int) ≤ end_ - p) :
    ceph_encode_64 be mem p end_ ino
        = Outcome.returned ⟨0, p + 8, store64 be mem p (cpu_to_le64 be ino)⟩ ∧
    ceph_encode_32 be (store64 be mem p (cpu_to_le64 be ino)) (p + 8) end_
        (path.length % 2 ^ 32) ≠ Outcome.bug := by
  have h8 : ¬ p + 8 > end_ := by omega
  have h4 : ¬ p + 8 + 4 > end_ := by omega
  constructor
  · unfold ceph_encode_64; rw [if_neg h8]
  · unfold ceph_encode_32; rw [if_neg h4]; exact fun e => Outcome.noConfusion e

/-- On a little-endian host `ceph_encode_filepath` writes the 8 little-endian bytes
of `ino`, the 4 little-endian bytes of the length, then the bytes of the path
without a terminator, advances the cursor by 12 plus the length and changes no
other byte. -/
theorem encode_filepath_little_endian_host (mem : Mem) (p end_ : Int) (ino : Nat)
    (path : List Nat) (hino : ino < 2 ^ 64) (hlen : path.length < 2 ^ 32)
    (hbytes : ∀ b ∈ path, b < 256) (hroom : 12 + (path.length : Int) ≤ end_ - p) :
    ∃ r : Encoded, ceph_encode_filepath false mem p end_ ino path = Outcome.returned r ∧
      r.ret = 0 ∧ r.p = p + 12 + (path.length : Int) ∧
      load_bytes r.mem p 8
        = [ino % 256, ino / 2 ^ 8 % 256, ino / 2 ^ 16 % 256, ino / 2 ^ 24 % 256,
           ino / 2 ^ 32 % 256, ino / 2 ^ 40 % 256, ino / 2 ^ 48 % 256, ino / 2 ^ 56 % 256] ∧
      load_bytes r.mem (p + 8) 4
        = [path.length % 256, path.length / 2 ^ 8 % 256, path.length / 2 ^ 16 % 256,
           path.length / 2 ^ 24 % 256] ∧
      load_bytes r.mem (p + 12) path.length = path ∧
      (∀ a : Int, a < p ∨ p + 12 + (path.length : Int) ≤ a → r.mem a = mem a) := by
  have hi : cpu_to_le64 false ino = ino := by
    simp only [cpu_to_le64, if_false, Bool.false_eq_true]; omega
  have hl : cpu_to_le64 false path.length % 2 ^ 32 = path.length := by
    simp only [cpu_to_le64, if_false, Bool.false_eq_true]; omega
  refine ⟨_, ceph_encode_filepath_of_room false mem p end_ ino path hlen hroom, rfl, ?_, ?_, ?_,
    ?_, ?_⟩
  · show p + 8 + 4 + (path.length : Int) = _
    omega
  · show load_bytes (store_bytes (store32 false (store64 false mem p (cpu_to_le64 false ino))
      (p + 8) (cpu_to_le64 false path.length % 2 ^ 32)) (p + 8 + 4) path) p 8 = _
    rw [load_bytes_store_bytes_disjoint _ _ _ _ _ (by omega), store32,
      load_bytes_store_bytes_disjoint _ _ _ _ _ (by omega), store64, hi]
    have e := load_bytes_store_bytes_same mem p (repr64 false ino)
    rw [repr64_length] at e
    rw [e]
    simp [repr64]
  · show load_bytes (store_bytes (store32 false (store64 false mem p (cpu_to_le64 false ino))
      (p + 8) (cpu_to_le64 false path.length % 2 ^ 32)) (p + 8 + 4) path) (p + 8) 4 = _
    rw [load_bytes_store_bytes_disjoint _ _ _ _ _ (by omega), store32, hl]
    have e := load_bytes_store_bytes_same (store64 false mem p (cpu_to_le64 false ino)) (p + 8)
      (repr32 false path.length)
    rw [repr32_length] at e
    rw [e]
    simp [repr32]
  · show load_bytes (store_bytes (store32 false (store64 false mem p (cpu_to_le64 false ino))
      (p + 8) (cpu_to_le64 false path.length % 2 ^ 32)) (p + 8 + 4) path) (p + 12)
      path.length = _
    have e12 : p + 12 = p + 8 + 4 := by omega
    rw [e12, load_bytes_store_bytes_same, map_mod_of_bytes path hbytes]
  · intro a ha
    show store_bytes (store32 false (store64 false mem p (cpu_to_le64 false ino))
      (p + 8) (cpu_to_le64 false path.length % 2 ^ 32)) (p + 8 + 4) path a = mem a
    rw [store_bytes_outside _ _ _ _ (by omega), store32,
      store_bytes_outside _ _ _ _ (by rw [repr32_length]; omega), store64,
      store_bytes_outside _ _ _ _ (by rw [repr64_length]; omega)]

/-- C11: on a big-endian host `ceph_encode_filepath` of inode 1 and the path "a"
writes the inode and the path byte as the wire format asks, but writes the
length field as four zero bytes instead of 01 00 00 00. -/
theorem encode_filepath_big_endian_loses_len :
    ∃ r : Encoded,
      ceph_encode_filepath true (mem_of (List.replicate 13 170)) 0 13 1 [97]
        = Outcome.returned r ∧
      r.ret = 0 ∧ r.p = 13 ∧
      load_bytes r.mem 0 8 = [1, 0, 0, 0, 0, 0, 0, 0] ∧
      load_bytes r.mem 8 4 = [0, 0, 0, 0] ∧
      load_bytes r.mem 8 4 ≠ [1, 0, 0, 0] ∧
      load_bytes r.mem 12 1 = [97] :=
  ⟨_, rfl, by decide, by decide, by decide, by decide, by decide, by decide⟩


theorem conn_step_closed (m : Nat) (c : conn) (e : conn_event)
    (h : c.state = conn_state.CLOSED) : (conn_step m c e).state = conn_state.CLOSED := by
  obtain ⟨s, r⟩ := c
  simp only at h
  subst h
  cases e <;> rfl

theorem conn_run_closed (m : Nat) (es : List conn_event) (c : conn)
    (h : c.state = conn_state.CLOSED) : (conn_run m c es).state = conn_state.CLOSED := by
  induction es generalizing c with
  | nil => exact h
  | cons e es ih => exact ih (conn_step m c e) (conn_step_closed m c e h)

/-- C12: over the seven connection states, a step of the state machine either
leaves the state as it is or follows a line of the transition table, a step
from `CLOSED` ends in `CLOSED`, and after any sequence of events a connection
that was `CLOSED` is still `CLOSED`. -/
theorem conn_steps_follow_table (m : Nat) (c : conn) (e : conn_event) (es : List conn_event) :
    ((conn_step m c e).state = c.state ∨ conn_table c.state (conn_step m c e).state = true) ∧
    (c.state = conn_state.CLOSED → (conn_step m c e).state = conn_state.CLOSED) ∧
    (c.state = conn_state.CLOSED → (conn_run m c es).state = conn_state.CLOSED) ∧
    (∀ s : conn_state, 1 ≤ s.code ∧ s.code ≤ 7) := by
  refine ⟨?_, conn_step_closed m c e, conn_run_closed m es c, ?_⟩
  · obtain ⟨s, r⟩ := c
    cases e <;> cases s <;> simp [conn_step, conn_table] <;> split <;> simp
  · intro s; cases s <;> simp [conn_state.code]

/-- C13: `ceph_encode_inst(to, x)` gives exactly what `ceph_decode_inst` gives
when applied in place to a copy of `x`, and `ceph_encode_header(to, x)` what
`ceph_decode_header` gives on a copy of `x`, on either host byte order. -/
theorem encode_inst_eq_decode_inst (be : Bool) (to_ x : ceph_entity_inst)
    (toh xh : ceph_msg_header) :
    ceph_encode_inst be to_ x = ceph_decode_inst be x ∧
    (ceph_encode_inst be to_ x).addr.ipaddr = x.addr.ipaddr ∧
    ceph_encode_header be toh xh = ceph_decode_header be xh := by
  refine ⟨?_, rfl, ?_⟩
  · simp [ceph_encode_inst, ceph_decode_inst, cpu_to_le32, le32_to_cpu]
  · simp [ceph_encode_header, ceph_decode_header, ceph_encode_inst, ceph_decode_inst,
      cpu_to_le32, le32_to_cpu]

theorem atomic_inc_eq (x : Int) (hlo : -2 ^ 31 ≤ x) (hhi : x + 1 < 2 ^ 31) :
    atomic_inc x = x + 1 := by
  unfold atomic_inc; omega

theorem ceph_msg_get_iterate_frame (n : Nat) (msg : ceph_msg) :
    (ceph_msg_get^[n] msg).hdr = msg.hdr ∧ (ceph_msg_get^[n] msg).front = msg.front ∧
    (ceph_msg_get^[n] msg).pages = msg.pages ∧ (ceph_msg_get^[n] msg).nr_pages = msg.nr_pages ∧
    (ceph_msg_get^[n] msg).list_head = msg.list_head := by
  induction n generalizing msg with
  | zero => exact ⟨rfl, rfl, rfl, rfl, rfl⟩
  | succ n ih =>
    rw [Function.iterate_succ_apply]
    exact ih (ceph_msg_get msg)

theorem ceph_msg_get_iterate_nref (n : Nat) (msg : ceph_msg) (hlo : -2 ^ 31 ≤ msg.nref)
    (hhi : msg.nref + (n : Int) < 2 ^ 31) :
    (ceph_msg_get^[n] msg).nref = msg.nref + (n : Int) := by
  induction n generalizing msg with
  | zero => simp
  | succ n ih =>
    rw [Function.iterate_succ_apply]
    have h1 : (ceph_msg_get msg).nref = msg.nref + 1 :=
      atomic_inc_eq msg.nref hlo (by push_cast at hhi; omega)
    rw [ih (ceph_msg_get msg) (by rw [h1]; omega) (by rw [h1]; push_cast at hhi; omega), h1]
    push_cast; omega

/-- C14, as stated, fails: a message whose counter holds `2 ^ 31 - 1` does not
get a counter one higher from `ceph_msg_get`; the counter wraps to `-2 ^ 31`. -/
theorem msg_get_wraps_at_int_max :
    msg_full.nref = 2 ^ 31 - 1 ∧ (ceph_msg_get msg_full).nref = -2 ^ 31 ∧
    (ceph_msg_get msg_full).nref ≠ msg_full.nref + 1 := by
  refine ⟨by decide, by decide, by decide⟩

/-- C14, amended: as long as the 32-bit counter does not overflow, `ceph_msg_get`
raises `nref` by exactly 1 and `n` calls raise it by exactly `n`; whatever the
counter, `hdr`, `front`, `pages`, `nr_pages` and `list_head` are unchanged. -/
theorem msg_get_adds_one (msg : ceph_msg) (n : Nat) (hlo : -2 ^ 31 ≤ msg.nref)
    (hhi : msg.nref + (n : Int) < 2 ^ 31) :
    (0 < n → (ceph_msg_get msg).nref = msg.nref + 1) ∧
    (ceph_msg_get^[n] msg).nref = msg.nref + (n : Int) ∧
    ((ceph_msg_get msg).hdr = msg.hdr ∧ (ceph_msg_get msg).front = msg.front ∧
      (ceph_msg_get msg).pages = msg.pages ∧ (ceph_msg_get msg).nr_pages = msg.nr_pages ∧
      (ceph_msg_get msg).list_head = msg.list_head) ∧
    ((ceph_msg_get^[n] msg).hdr = msg.hdr ∧ (ceph_msg_get^[n] msg).front = msg.front ∧
      (ceph_msg_get^[n] msg).pages = msg.pages ∧
      (ceph_msg_get^[n] msg).nr_pages = msg.nr_pages ∧
      (ceph_msg_get^[n] msg).list_head = msg.list_head) := by
  refine ⟨?_, ceph_msg_get_iterate_nref n msg hlo hhi, ⟨rfl, rfl, rfl, rfl, rfl⟩,
    ceph_msg_get_iterate_frame n msg⟩
  intro hn
  exact atomic_inc_eq msg.nref hlo (by omega)

theorem msg_get_adds_one_witness :
    (ceph_msg_get^[3] { msg_full with nref := 1 }).nref = 1 + ((3 : Nat) : Int) ∧
    (ceph_msg_get^[3] { msg_full with nref := 1 }).hdr = hdr0 :=
  have h := msg_get_adds_one { msg_full with nref := 1 } 3 (by decide) (by decide)
  ⟨h.2.1, h.2.2.2.1⟩


/-- The value `ceph_decode_copy` hands to `memcpy` for `len = -1`. -/
theorem size_t_of_int_neg_one : size_t_of_int (-1) = 2 ^ 64 - 1 := by
  unfold size_t_of_int; decide

/-- For a length that is not negative, `ceph_decode_copy` returns 0 exactly when
`len` bytes remain; it then copies the `len` bytes at the cursor and moves the
cursor forward by `len`, not past `end`; otherwise it returns `-EINVAL` and
leaves the cursor and the destination as they were. -/
theorem decode_copy_nonneg_len (mem : Mem) (p end_ : Int) (v : List Nat) (len : Int)
    (h0 : 0 ≤ len) (h1 : len < 2 ^ 31) :
    ((ceph_decode_copy mem p end_ v len).ret = 0 ↔ len ≤ end_ - p) ∧
    ((ceph_decode_copy mem p end_ v len).ret = 0 →
      (ceph_decode_copy mem p end_ v len).v
        = load_bytes mem p len.toNat ++ v.drop len.toNat ∧
      (ceph_decode_copy mem p end_ v len).p = p + len ∧
      p ≤ (ceph_decode_copy mem p end_ v len).p ∧ (ceph_decode_copy mem p end_ v len).p ≤ end_) ∧
    ((ceph_decode_copy mem p end_ v len).ret ≠ 0 →
      (ceph_decode_copy mem p end_ v len).ret = -EINVAL ∧
      (ceph_decode_copy mem p end_ v len).p = p ∧ (ceph_decode_copy mem p end_ v len).v = v) := by
  have hs : size_t_of_int len = len.toNat := by unfold size_t_of_int; omega
  unfold ceph_decode_copy
  by_cases h : p + len > end_
  · simp [h, EINVAL]; omega
  · simp [h, EINVAL, hs]; omega

/-- C15: with `len = -1`, cursor 4 and `end` 8, `ceph_decode_copy` returns 0, moves
the cursor back to 3 and hands `memcpy` the length `2 ^ 64 - 1`, so the copy
reads at `end` and beyond. -/
theorem decode_copy_negative_len :
    (ceph_decode_copy (mem_of [1, 2, 3, 4, 5, 6, 7, 8]) 4 8 [0, 0] (-1)).ret = 0 ∧
    (ceph_decode_copy (mem_of [1, 2, 3, 4, 5, 6, 7, 8]) 4 8 [0, 0] (-1)).p = 3 ∧
    (ceph_decode_copy (mem_of [1, 2, 3, 4, 5, 6, 7, 8]) 4 8 [0, 0] (-1)).reads
      = span 4 (2 ^ 64 - 1) ∧
    (8 : Int) ∈ (ceph_decode_copy (mem_of [1, 2, 3, 4, 5, 6, 7, 8]) 4 8 [0, 0] (-1)).reads ∧
    (ceph_decode_copy (mem_of [1, 2, 3, 4, 5, 6, 7, 8]) 4 8 [0, 0] (-1)).v.length
      = 2 ^ 64 - 1 := by
  have hc : ¬ ((4 : Int) + (-1) > 8) := by decide
  have e : ceph_decode_copy (mem_of [1, 2, 3, 4, 5, 6, 7, 8]) 4 8 [0, 0] (-1)
      = ⟨0, 4 + (-1), load_bytes (mem_of [1, 2, 3, 4, 5, 6, 7, 8]) 4 (2 ^ 64 - 1)
            ++ List.drop (2 ^ 64 - 1) [0, 0], span 4 (2 ^ 64 - 1)⟩ := by
    unfold ceph_decode_copy
    rw [if_neg hc, size_t_of_int_neg_one]
  have hret := congrArg Decoded.ret e
  have hp := congrArg Decoded.p e
  have hreads := congrArg Decoded.reads e
  have hv := congrArg Decoded.v e
  simp only at hret hp hreads hv
  refine ⟨hret, by rw [hp]; decide, hreads, ?_, ?_⟩
  · rw [hreads]
    exact (mem_span 8 4 (2 ^ 64 - 1)).2 (by omega)
  · rw [hv, List.length_append, load_bytes_length, List.length_drop]
    decide

/-- C16: with pairwise distinct case labels, `ceph_name_type_str` maps the five
entity types to "mon", "mds", "osd", "client" and "admin", five pairwise
distinct names, and returns "???" for exactly the integers that are none of
the five. -/
theorem name_type_str_cases (c : entity_types) (hc : c.labels.Nodup) :
    ceph_name_type_str c c.mon = "mon" ∧ ceph_name_type_str c c.mds = "mds" ∧
    ceph_name_type_str c c.osd = "osd" ∧ ceph_name_type_str c c.client = "client" ∧
    ceph_name_type_str c c.admin = "admin" ∧
    ["mon", "mds", "osd", "client", "admin"].Nodup ∧
    (∀ t : Int, ceph_name_type_str c t = "???" ↔ t ∉ c.labels) := by
  obtain ⟨mon, mds, osd, client, admin⟩ := c
  simp only [entity_types.labels, List.nodup_cons, List.mem_cons, List.mem_singleton,
    List.not_mem_nil, not_or, not_false_eq_true, List.nodup_nil, and_true, or_false] at hc
  obtain ⟨⟨h12, h13, h14, h15⟩, ⟨h23, h24, h25⟩, ⟨h34, h35⟩, h45⟩ := hc
  refine ⟨?_, ?_, ?_, ?_, ?_, by decide, ?_⟩
  · simp [ceph_name_type_str]
  · simp [ceph_name_type_str, Ne.symm h12]
  · simp [ceph_name_type_str, Ne.symm h13, Ne.symm h23]
  · simp [ceph_name_type_str, Ne.symm h14, Ne.symm h24, Ne.symm h34]
  · simp [ceph_name_type_str, Ne.symm h15, Ne.symm h25, Ne.symm h35, Ne.symm h45]
  · intro t
    simp only [ceph_name_type_str, entity_types.labels, List.mem_cons, List.mem_singleton,
      List.not_mem_nil, or_false, not_or]
    by_cases e1 : t = mon
    · simp [e1]
    by_cases e2 : t = mds
    · simp [e2, Ne.symm h12]
    by_cases e3 : t = osd
    · simp [e3, Ne.symm h13, Ne.symm h23]
    by_cases e4 : t = client
    · simp [e4, Ne.symm h14, Ne.symm h24, Ne.symm h34]
    by_cases e5 : t = admin
    · simp [e5, Ne.symm h15, Ne.symm h25, Ne.symm h35, Ne.symm h45]
    simp [e1, e2, e3, e4, e5]

theorem name_type_str_cases_witness :
    (⟨1, 2, 3, 4, 5⟩ : entity_types).labels.Nodup ∧
    ceph_name_type_str ⟨1, 2, 3, 4, 5⟩ 4 = "client" ∧
    ceph_name_type_str ⟨1, 2, 3, 4, 5⟩ 0 = "???" :=
  have h := name_type_str_cases ⟨1, 2, 3, 4, 5⟩ (by decide)
  ⟨by decide, h.2.2.2.1, (h.2.2.2.2.2.2 0).2 (by decide)⟩

end Ceph
